import Mathlib

/-!
Shallow embedding of the multi-client TCP echo server (`echoserver.c`) and
the argument handling of the TCP echo client (`echoclient.c`).

File descriptors are modelled as `Int` (C `int`).  The connection registry
(`fd_list_t`, a singly linked list) is modelled as `List Int`.  OS calls
(`poll`, `accept`, `recv`, `send`) are modelled by oracles supplied as inputs
to each event-loop iteration; their observable effects (send calls issued,
fds closed) are recorded explicitly.
-/

namespace EchoServer

/-- C constant `EXIT_FAILURE`. -/
def EXIT_FAILURE : Int := 1

/-- C constant `EXIT_SUCCESS`. -/
def EXIT_SUCCESS : Int := 0

/-- Linux errno `EEXIST`, returned by `InsertFd` on a detected duplicate. -/
def EEXIST : Int := 17

/-- Linux errno `ENOENT`, returned by `RemoveFd` when the fd is not found. -/
def ENOENT : Int := 2

/-- `#define BUF_SIZE 1024`, the size of the receive buffer (the receive
buffer itself is `char buffer[BUF_SIZE + 1]`). -/
def BUF_SIZE : Nat := 1024

/-- The declared receive buffer holds `BUF_SIZE + 1` bytes
(`char buffer[BUF_SIZE + 1]` in `DoEcho`). -/
def bufferCapacity : Nat := BUF_SIZE + 1

/-- Linux flag `MSG_DONTWAIT` (0x40), passed to every `send` in `DoEcho`. -/
def MSG_DONTWAIT : Int := 64

/-- The loop body of `InsertFd` for a non-empty list: `here` walks the list
with `while (here->next != NULL)`, comparing `here->fd == fd` only for nodes
that have a successor; at the last node it appends without comparing.
Returns (C return value, resulting list). -/
def insertLoop (fd : Int) : List Int → Int × List Int
  | [] => (0, [fd])
  | [x] => (0, [x, fd])
  | x :: y :: rest =>
    if x = fd then (EEXIST, x :: y :: rest)
    else
      let p := insertLoop fd (y :: rest)
      (p.1, x :: p.2)

/-- `InsertFd(fd, &list)` from `echoserver.c`: on an empty list, allocate a
single node; otherwise run the traversal loop.  (Allocation is modelled as
always succeeding.)  Returns (C return value, resulting list). -/
def InsertFd (fd : Int) (list : List Int) : Int × List Int :=
  match list with
  | [] => (0, [fd])
  | l => insertLoop fd l

/-- The scan loop of `RemoveFd` for a non-empty list: remove the first node
whose fd matches and return 0; if the scan exhausts the list, return
`ENOENT` and leave the list unchanged. -/
def removeLoop (fd : Int) : List Int → Int × List Int
  | [] => (ENOENT, [])
  | x :: rest =>
    if x = fd then (0, rest)
    else
      let p := removeLoop fd rest
      (p.1, x :: p.2)

/-- `RemoveFd(fd, &list)` from `echoserver.c`: returns 0 immediately on an
empty list, otherwise scans.  Returns (C return value, resulting list). -/
def RemoveFd (fd : Int) (list : List Int) : Int × List Int :=
  match list with
  | [] => (0, [])
  | l => removeLoop fd l

/-- One `send(fd, buffer, len, flags)` call issued by the broadcast loop of
`DoEcho`, recording the destination fd, the length argument passed, and the
flags argument. -/
structure SendCall where
  fd : Int
  len : Int
  flags : Int
  deriving Repr, DecidableEq

/-- The broadcast `while (here != NULL)` loop of `DoEcho`.  `result` holds
the C variable `result`, which is both the length argument of the next
`send` and is overwritten by each `send`'s return value (supplied by the
oracle `sendRet`, indexed by call number `i`).  Returns the send calls
issued, in order, and the final value of `result`. -/
def echoLoop (sendRet : Nat → Int) : List Int → Int → Nat → List SendCall × Int
  | [], result, _ => ([], result)
  | fd :: rest, result, i =>
    let r := sendRet i
    let p := echoLoop sendRet rest r (i + 1)
    (⟨fd, result, MSG_DONTWAIT⟩ :: p.1, p.2)

/-- `DoEcho(clientFd, list)` from `echoserver.c`, with the return value of
`recv(clientFd, buffer, BUF_SIZE, 0)` supplied as `recvRet` and the return
values of the `send` calls supplied by `sendRet`.  If `recv` fails
(`recvRet < 0`) it returns `recvRet`; on orderly close (`recvRet = 0`) it
returns 0; otherwise it broadcasts to every node of `list` and then sets
`result = 1`.  Returns (C return value, send calls issued). -/
def DoEcho (recvRet : Int) (sendRet : Nat → Int) (list : List Int) :
    Int × List SendCall :=
  if recvRet < 0 then (recvRet, [])
  else if recvRet = 0 then (0, [])
  else
    let p := echoLoop sendRet list recvRet 0
    (1, p.1)

example : InsertFd 5 [5] = (0, [5, 5]) := by decide
example : InsertFd 5 [5, 6] = (EEXIST, [5, 6]) := by decide
example : InsertFd 7 [3, 5] = (0, [3, 5, 7]) := by decide
example : RemoveFd 7 [5] = (ENOENT, [5]) := by decide
example : RemoveFd 7 [] = (0, []) := by decide
example : RemoveFd 5 [3, 5, 9] = (0, [3, 9]) := by decide
example :
    (DoEcho 5 (fun i => if i = 0 then (-1 : Int) else 2) [3, 4]).2 =
      [⟨3, 5, MSG_DONTWAIT⟩, ⟨4, -1, MSG_DONTWAIT⟩] := by decide
example : DoEcho 5 (fun _ => 5) [3, 4] =
    (1, [⟨3, 5, MSG_DONTWAIT⟩, ⟨4, 5, MSG_DONTWAIT⟩]) := by decide
example : DoEcho 0 (fun _ => 5) [3, 4] = (0, []) := by decide
example : DoEcho (-3) (fun _ => 5) [3, 4] = (-3, []) := by decide

/-- Model of a successful `recv(fd, buffer, BUF_SIZE, 0)` on a stream with
`pending` bytes queued: per the POSIX contract it returns
`min pending.length BUF_SIZE` and stages exactly those bytes in the buffer. -/
def recvFromStream (pending : List Nat) : Nat × List Nat :=
  (min pending.length BUF_SIZE, pending.take BUF_SIZE)

/-- The mutable state of the event loop in `main` of `echoserver.c`:
the listening fd, the connection registry `fdList`, the counter `numFds`,
the dirty flag `changed`, and the fds of the current `pollfd` array
(every entry's requested event is `POLLIN`, so only the fds are recorded). -/
structure ServerState where
  listenFd : Int
  fdList : List Int
  numFds : Nat
  changed : Bool
  pfds : List Int
  deriving Repr, DecidableEq

/-- The OS-supplied inputs of one iteration of the event loop:
the return value of `poll`, the `POLLIN` bit of `revents` per slot index,
the return value of `accept`, and per client fd the return value of its
`recv` and of each of its broadcast `send` calls. -/
structure StepInputs where
  pollRet : Int
  revents : Nat → Bool
  acceptRet : Int
  recvOf : Int → Int
  sendOf : Int → Nat → Int

/-- The `if (changed)` block at the top of the loop: rebuild the `pollfd`
array, slot 0 being `listenFd` and slots `1 .. numFds - 1` being filled from
a traversal of `fdList`, then clear `changed`.  The C loop reads exactly
`numFds - 1` nodes; this is written with `take`, which agrees with the C
code whenever `fdList` has at least `numFds - 1` nodes — the loop invariant
(claim C9) gives exactly `numFds - 1` nodes. -/
def rebuildIfChanged (s : ServerState) : ServerState :=
  if s.changed then
    { s with pfds := s.listenFd :: s.fdList.take (s.numFds - 1), changed := false }
  else s

/-- The `pfds[0].revents & POLLIN` block: on readiness of the listening
socket, `accept`; on accept failure only log; on success call
`InsertFd(acceptedFd, &fdList)` (its return value is ignored, as in the C),
increment `numFds` and set `changed`. -/
def acceptPhase (ready0 : Bool) (acceptRet : Int) (s : ServerState) : ServerState :=
  if ready0 then
    if acceptRet < 0 then s
    else
      { s with fdList := (InsertFd acceptRet s.fdList).2,
               numFds := s.numFds + 1, changed := true }
  else s

/-- The fd and `POLLIN` readiness of each client slot scanned by the
`for (i = 1; i < startingFds; i++)` loop: slot `j + 1` of the `pollfd`
array for `j < startingFds - 1`. -/
def clientSlots (pfds : List Int) (revents : Nat → Bool) (startingFds : Nat) :
    List (Int × Bool) :=
  (List.range (startingFds - 1)).map fun j => (pfds.getD (j + 1) 0, revents (j + 1))

/-- The body of the client-service loop: for each ready slot run `DoEcho`
on the current registry; if its result is `<= 0`, `close` the fd (recorded
in the returned list, in order) and `RemoveFd` it from the registry.
Returns (final registry, closed fds in order). -/
def serviceClients (recvOf : Int → Int) (sendOf : Int → Nat → Int) :
    List (Int × Bool) → List Int → List Int × List Int
  | [], fdList => (fdList, [])
  | (fd, ready) :: rest, fdList =>
    if ready then
      if (DoEcho (recvOf fd) (sendOf fd) fdList).1 ≤ 0 then
        let p := serviceClients recvOf sendOf rest (RemoveFd fd fdList).2
        (p.1, fd :: p.2)
      else serviceClients recvOf sendOf rest fdList
    else serviceClients recvOf sendOf rest fdList

/-- The outcome of one iteration of the `while (1)` loop: either the
process exits (`poll` returned -1: `perror` then `exit(EXIT_FAILURE)`), or
the loop continues with a new state, having closed the listed fds. -/
inductive StepResult where
  | fatal (status : Int)
  | next (s : ServerState) (closed : List Int)
  deriving Repr, DecidableEq

/-- One full iteration of the event loop of `main`: record
`startingFds = numFds`, rebuild the `pollfd` array if `changed`, call
`poll` (exiting with `EXIT_FAILURE` if it returns -1), service the
listening socket, then service the client slots of the snapshot. -/
def loopStep (s : ServerState) (inp : StepInputs) : StepResult :=
  let startingFds := s.numFds
  let s1 := rebuildIfChanged s
  if inp.pollRet = -1 then .fatal EXIT_FAILURE
  else
    let s2 := acceptPhase (inp.revents 0) inp.acceptRet s1
    let slots := clientSlots s1.pfds inp.revents startingFds
    let p := serviceClients inp.recvOf inp.sendOf slots s2.fdList
    .next { s2 with fdList := p.1,
                    numFds := s2.numFds - p.2.length,
                    changed := s2.changed || !p.2.isEmpty } p.2

/-- The registry built by a sequence of `InsertFd` calls starting from
`list`, ignoring the return values (as the event loop does). -/
def insertAll (fds : List Int) (list : List Int) : List Int :=
  fds.foldl (fun l fd => (InsertFd fd l).2) list

/-- The loop invariant relating `numFds`, the registry and the `pollfd`
array: `numFds` is one more than the registry length, the registry holds no
duplicate fds and never the listening fd, and when `changed` is clear the
`pollfd` fds are the listening fd followed by the registry members. -/
def Inv (s : ServerState) : Prop :=
  s.numFds = 1 + s.fdList.length ∧
  s.fdList.Nodup ∧
  s.listenFd ∉ s.fdList ∧
  (s.changed = false → s.pfds = s.listenFd :: s.fdList)

/-- OS well-formedness of an iteration's inputs: a successfully accepted fd
is a fresh descriptor, distinct from the listening fd and from every fd
currently in the registry. -/
def FreshAccept (s : ServerState) (inp : StepInputs) : Prop :=
  0 ≤ inp.acceptRet → inp.acceptRet ∉ s.fdList ∧ inp.acceptRet ≠ s.listenFd

/-- Outcome of the argument-count check at the top of `main`: either print
a usage line (to stderr) and `exit(EXIT_FAILURE)`, or proceed. -/
inductive ArgvOutcome where
  | usageExit (usageOnStderr : Bool) (status : Int)
  | proceed
  deriving Repr, DecidableEq

/-- `echoserver.c` `main`: `if (argc != 2)` print usage to `stderr` and
`exit(EXIT_FAILURE)`. -/
def serverArgCheck (argc : Nat) : ArgvOutcome :=
  if argc = 2 then .proceed else .usageExit true EXIT_FAILURE

/-- `echoclient.c` `main`: `if (argc != 3)` print usage to `stderr` and
`exit(EXIT_FAILURE)`. -/
def clientArgCheck (argc : Nat) : ArgvOutcome :=
  if argc = 3 then .proceed else .usageExit true EXIT_FAILURE

example :
    loopStep ⟨10, [3, 5], 3, false, [10, 3, 5]⟩
      ⟨1, fun _ => true, 7, (fun fd => if fd = 3 then 0 else 1), fun _ _ => 1⟩ =
    .next ⟨10, [5, 7], 3, true, [10, 3, 5]⟩ [3] := by decide

example :
    loopStep ⟨10, [3, 5], 3, true, []⟩
      ⟨-1, fun _ => true, -1, (fun _ => 1), fun _ _ => 1⟩ =
    .fatal EXIT_FAILURE := by decide

/-! ### Characterization of the registry and echo operations -/

theorem DoEcho_fst (rr : Int) (sr : Nat → Int) (l : List Int) :
    (DoEcho rr sr l).1 = if rr < 0 then rr else if rr = 0 then 0 else 1 := by
  by_cases h : rr < 0
  · simp [DoEcho, h]
  · by_cases h0 : rr = 0 <;> simp [DoEcho, h, h0]

theorem DoEcho_fst_nonpos (rr : Int) (sr : Nat → Int) (l : List Int) :
    (DoEcho rr sr l).1 ≤ 0 ↔ rr ≤ 0 := by
  rw [DoEcho_fst]
  split_ifs <;> omega

theorem removeLoop_snd (fd : Int) : ∀ l : List Int, (removeLoop fd l).2 = l.erase fd
  | [] => by simp [removeLoop]
  | x :: rest => by
    by_cases hx : x = fd
    · simp [removeLoop, hx]
    · rw [List.erase_cons_tail (by simpa using hx)]
      simp [removeLoop, hx, removeLoop_snd fd rest]

theorem removeLoop_fst (fd : Int) :
    ∀ l : List Int, (removeLoop fd l).1 = if fd ∈ l then 0 else ENOENT
  | [] => by simp [removeLoop]
  | x :: rest => by
    by_cases hx : x = fd
    · simp [removeLoop, hx]
    · have hne : ¬ fd = x := fun h => hx h.symm
      simp [removeLoop, hx, removeLoop_fst fd rest, hne]

theorem RemoveFd_snd (fd : Int) (l : List Int) : (RemoveFd fd l).2 = l.erase fd := by
  cases l with
  | nil => rfl
  | cons x rest => exact removeLoop_snd fd (x :: rest)

theorem RemoveFd_fst (fd : Int) (l : List Int) :
    (RemoveFd fd l).1 = if l = [] then 0 else if fd ∈ l then 0 else ENOENT := by
  cases l with
  | nil => rfl
  | cons x rest => simpa using removeLoop_fst fd (x :: rest)

theorem insertLoop_of_not_mem (fd : Int) :
    ∀ l : List Int, fd ∉ l → insertLoop fd l = (0, l ++ [fd])
  | [], _ => by simp [insertLoop]
  | [x], _ => by simp [insertLoop]
  | x :: y :: rest, h => by
    have hx : ¬ x = fd := fun he => h (he ▸ List.mem_cons_self x (y :: rest))
    have ih := insertLoop_of_not_mem fd (y :: rest)
      (fun hm => h (List.mem_cons_of_mem x hm))
    simp [insertLoop, hx, ih]

theorem InsertFd_of_not_mem (fd : Int) (l : List Int) (h : fd ∉ l) :
    InsertFd fd l = (0, l ++ [fd]) := by
  cases l with
  | nil => rfl
  | cons x rest => exact insertLoop_of_not_mem fd (x :: rest) h

theorem insertAll_of_forall_not_mem :
    ∀ (fds L : List Int), fds.Nodup → (∀ x ∈ fds, x ∉ L) → insertAll fds L = L ++ fds
  | [], L, _, _ => by simp [insertAll]
  | a :: t, L, hnd, hmem => by
    have ha : a ∉ L := hmem a (List.mem_cons_self a t)
    have hanot : a ∉ t := (List.nodup_cons.mp hnd).1
    have hstep : (InsertFd a L).2 = L ++ [a] := by rw [InsertFd_of_not_mem a L ha]
    have ih := insertAll_of_forall_not_mem t (L ++ [a]) (List.nodup_cons.mp hnd).2
      (by
        intro x hx
        simp only [List.mem_append, List.mem_singleton, not_or]
        exact ⟨hmem x (List.mem_cons_of_mem a hx), fun he => hanot (he ▸ hx)⟩)
    calc insertAll (a :: t) L = insertAll t (InsertFd a L).2 := by
          simp [insertAll]
      _ = insertAll t (L ++ [a]) := by rw [hstep]
      _ = (L ++ [a]) ++ t := ih
      _ = L ++ (a :: t) := by simp

theorem echoLoop_map_fd (sr : Nat → Int) :
    ∀ (l : List Int) (result : Int) (i : Nat),
      ((echoLoop sr l result i).1).map SendCall.fd = l
  | [], _, _ => by simp [echoLoop]
  | fd :: rest, result, i => by
    simp [echoLoop, echoLoop_map_fd sr rest (sr i) (i + 1)]

theorem DoEcho_targets (rr : Int) (sr : Nat → Int) (l : List Int) (h : 0 < rr) :
    ((DoEcho rr sr l).2).map SendCall.fd = l := by
  have h1 : ¬ rr < 0 := by omega
  have h2 : ¬ rr = 0 := by omega
  simp [DoEcho, h1, h2, echoLoop_map_fd]

theorem serviceClients_snd (recvOf : Int → Int) (sendOf : Int → Nat → Int) :
    ∀ (slots : List (Int × Bool)) (L : List Int),
      (serviceClients recvOf sendOf slots L).2 =
        (slots.filter fun q => q.2 && decide (recvOf q.1 ≤ 0)).map Prod.fst
  | [], L => by simp [serviceClients]
  | (fd, ready) :: rest, L => by
    cases ready with
    | false => simp [serviceClients, serviceClients_snd recvOf sendOf rest L]
    | true =>
      by_cases hd : recvOf fd ≤ 0
      · have hdo : (DoEcho (recvOf fd) (sendOf fd) L).1 ≤ 0 :=
          (DoEcho_fst_nonpos _ _ _).mpr hd
        simp [serviceClients, hdo, hd, serviceClients_snd recvOf sendOf rest]
      · have hdo : ¬ (DoEcho (recvOf fd) (sendOf fd) L).1 ≤ 0 :=
          fun hc => hd ((DoEcho_fst_nonpos _ _ _).mp hc)
        simp [serviceClients, hdo, hd, serviceClients_snd recvOf sendOf rest L]

theorem serviceClients_fst (recvOf : Int → Int) (sendOf : Int → Nat → Int) :
    ∀ (slots : List (Int × Bool)) (L : List Int),
      (serviceClients recvOf sendOf slots L).1 =
        ((serviceClients recvOf sendOf slots L).2).foldl (fun l fd => l.erase fd) L
  | [], L => by simp [serviceClients]
  | (fd, ready) :: rest, L => by
    cases ready with
    | false => simp [serviceClients, serviceClients_fst recvOf sendOf rest L]
    | true =>
      by_cases hdo : (DoEcho (recvOf fd) (sendOf fd) L).1 ≤ 0
      · have ih := serviceClients_fst recvOf sendOf rest (RemoveFd fd L).2
        rw [RemoveFd_snd] at ih
        simp [serviceClients, hdo, ih, RemoveFd_snd]
      · simp [serviceClients, hdo, serviceClients_fst recvOf sendOf rest L]

/-! ### Folded erasure (the effect of applying all `RemoveFd` calls of one
iteration) -/

theorem mem_of_mem_foldl_erase :
    ∀ (cs L : List Int) (c : Int), c ∈ cs.foldl (fun l fd => l.erase fd) L → c ∈ L
  | [], _, _, h => h
  | d :: t, L, c, h => by
    simp only [List.foldl_cons] at h
    exact List.mem_of_mem_erase (mem_of_mem_foldl_erase t (L.erase d) c h)

theorem nodup_foldl_erase :
    ∀ (cs L : List Int), L.Nodup → (cs.foldl (fun l fd => l.erase fd) L).Nodup
  | [], _, h => h
  | d :: t, L, h => by
    simp only [List.foldl_cons]
    exact nodup_foldl_erase t (L.erase d) (h.erase d)

theorem length_foldl_erase :
    ∀ (cs L : List Int), cs.Nodup → (∀ c ∈ cs, c ∈ L) →
      (cs.foldl (fun l fd => l.erase fd) L).length + cs.length = L.length
  | [], L, _, _ => by simp
  | d :: t, L, hnd, hmem => by
    have hd : d ∈ L := hmem d (List.mem_cons_self d t)
    have hlen : (L.erase d).length = L.length - 1 := List.length_erase_of_mem hd
    have hdt : d ∉ t := (List.nodup_cons.mp hnd).1
    have htm : ∀ c ∈ t, c ∈ L.erase d := by
      intro c hc
      have hne : c ≠ d := fun he => hdt (he ▸ hc)
      exact (List.mem_erase_of_ne hne).mpr (hmem c (List.mem_cons_of_mem d hc))
    have ih := length_foldl_erase t (L.erase d) (List.nodup_cons.mp hnd).2 htm
    have hpos : 1 ≤ L.length := List.length_pos.mpr (List.ne_nil_of_mem hd)
    simp only [List.foldl_cons, List.length_cons]
    omega

theorem not_mem_foldl_erase :
    ∀ (cs L : List Int) (c : Int), L.Nodup → c ∈ cs →
      c ∉ cs.foldl (fun l fd => l.erase fd) L
  | [], _, c, _, hc => absurd hc (List.not_mem_nil c)
  | d :: t, L, c, hnd, hc => by
    simp only [List.foldl_cons]
    by_cases he : c = d
    · subst he
      intro hmem
      exact hnd.not_mem_erase (mem_of_mem_foldl_erase t (L.erase c) c hmem)
    · have hc' : c ∈ t := by
        rcases List.mem_cons.mp hc with h | h
        · exact absurd h he
        · exact h
      exact not_mem_foldl_erase t (L.erase d) c (hnd.erase d) hc'

/-! ### The rebuild phase and the client-slot snapshot -/

theorem rebuild_fdList (s : ServerState) : (rebuildIfChanged s).fdList = s.fdList := by
  unfold rebuildIfChanged
  split <;> rfl

theorem rebuild_listenFd (s : ServerState) :
    (rebuildIfChanged s).listenFd = s.listenFd := by
  unfold rebuildIfChanged
  split <;> rfl

theorem rebuild_numFds (s : ServerState) : (rebuildIfChanged s).numFds = s.numFds := by
  unfold rebuildIfChanged
  split <;> rfl

theorem rebuild_changed (s : ServerState) : (rebuildIfChanged s).changed = false := by
  unfold rebuildIfChanged
  split
  · rfl
  · next h => simpa using h

theorem rebuild_pfds_of_inv (s : ServerState) (h : Inv s) :
    (rebuildIfChanged s).pfds = s.listenFd :: s.fdList := by
  unfold rebuildIfChanged
  split
  · have hn : s.numFds - 1 = s.fdList.length := by
      have := h.1
      omega
    simp only [hn, List.take_length]
  · next hc => exact h.2.2.2 (by simpa using hc)

theorem range_map_getD :
    ∀ l : List Int, (List.range l.length).map (fun j => l.getD j 0) = l
  | [] => by simp
  | x :: t => by
    have ih := range_map_getD t
    simp only [List.length_cons, List.range_succ_eq_map, List.map_cons,
      List.getD_cons_zero, List.map_map]
    exact congrArg (List.cons x) ih

theorem clientSlots_map_fst (x : Int) (l : List Int) (rev : Nat → Bool) :
    (clientSlots (x :: l) rev (1 + l.length)).map Prod.fst = l := by
  unfold clientSlots
  have hn : 1 + l.length - 1 = l.length := by omega
  rw [hn, List.map_map]
  exact range_map_getD l

/-! ### One full iteration, characterized -/

/-- The state after the rebuild and accept phases of one iteration. -/
def afterAccept (s : ServerState) (inp : StepInputs) : ServerState :=
  acceptPhase (inp.revents 0) inp.acceptRet (rebuildIfChanged s)

/-- The fds closed (and removed) by the client-service phase of one
iteration: the fds of the snapshot slots that were readable and whose
`recv` returned `<= 0`. -/
def closedOf (s : ServerState) (inp : StepInputs) : List Int :=
  ((clientSlots (rebuildIfChanged s).pfds inp.revents s.numFds).filter
    fun q => q.2 && decide (inp.recvOf q.1 ≤ 0)).map Prod.fst

theorem loopStep_next (s : ServerState) (inp : StepInputs) (hpoll : inp.pollRet ≠ -1) :
    loopStep s inp = .next
      { afterAccept s inp with
          fdList := (closedOf s inp).foldl (fun l fd => l.erase fd)
            (afterAccept s inp).fdList,
          numFds := (afterAccept s inp).numFds - (closedOf s inp).length,
          changed := (afterAccept s inp).changed || !(closedOf s inp).isEmpty }
      (closedOf s inp) := by
  have hsnd := serviceClients_snd inp.recvOf inp.sendOf
    (clientSlots (rebuildIfChanged s).pfds inp.revents s.numFds)
    (afterAccept s inp).fdList
  have hfst := serviceClients_fst inp.recvOf inp.sendOf
    (clientSlots (rebuildIfChanged s).pfds inp.revents s.numFds)
    (afterAccept s inp).fdList
  rw [hsnd] at hfst
  simp only [loopStep, hpoll, if_neg, afterAccept, closedOf] at *
  rw [hsnd, hfst]
  simp

theorem afterAccept_cases (s : ServerState) (inp : StepInputs)
    (hF : FreshAccept s inp) :
    afterAccept s inp = rebuildIfChanged s ∨
    (0 ≤ inp.acceptRet ∧ inp.acceptRet ∉ s.fdList ∧ inp.acceptRet ≠ s.listenFd ∧
      afterAccept s inp =
        { rebuildIfChanged s with
            fdList := s.fdList ++ [inp.acceptRet],
            numFds := s.numFds + 1,
            changed := true }) := by
  unfold afterAccept acceptPhase
  by_cases hr : inp.revents 0 = true
  · by_cases hacc : inp.acceptRet < 0
    · left
      simp [hr, hacc]
    · right
      have ha : 0 ≤ inp.acceptRet := by omega
      obtain ⟨hnm, hne⟩ := hF ha
      refine ⟨ha, hnm, hne, ?_⟩
      rw [if_pos hr, if_neg hacc, rebuild_fdList, rebuild_numFds,
        InsertFd_of_not_mem inp.acceptRet s.fdList hnm]
  · left
    simp [hr]

theorem afterAccept_spec (s : ServerState) (inp : StepInputs) (hInv : Inv s)
    (hF : FreshAccept s inp) :
    (afterAccept s inp).listenFd = s.listenFd ∧
    (afterAccept s inp).numFds = 1 + (afterAccept s inp).fdList.length ∧
    (afterAccept s inp).fdList.Nodup ∧
    s.listenFd ∉ (afterAccept s inp).fdList ∧
    s.fdList ⊆ (afterAccept s inp).fdList ∧
    ((afterAccept s inp).changed = false →
      (afterAccept s inp).fdList = s.fdList ∧
      (afterAccept s inp).pfds = s.listenFd :: s.fdList) := by
  obtain ⟨h1, h2, h3, h4⟩ := hInv
  rcases afterAccept_cases s inp hF with he | ⟨_, hnm, hne, he⟩
  · rw [he, rebuild_listenFd, rebuild_numFds, rebuild_fdList, rebuild_changed]
    exact ⟨rfl, h1, h2, h3, fun x hx => hx,
      fun _ => ⟨rfl, rebuild_pfds_of_inv s ⟨h1, h2, h3, h4⟩⟩⟩
  · rw [he]
    refine ⟨rebuild_listenFd s, ?_, ?_, ?_, ?_, ?_⟩
    · simp only [List.length_append, List.length_singleton]
      omega
    · rw [List.nodup_append]
      refine ⟨h2, List.nodup_singleton _, ?_⟩
      intro x hx hx2
      rw [List.mem_singleton] at hx2
      exact hnm (hx2 ▸ hx)
    · simp only [List.mem_append, List.mem_singleton, not_or]
      exact ⟨h3, fun hl => hne hl.symm⟩
    · exact List.subset_append_left _ _
    · intro hch
      exact absurd hch (by simp)

theorem loopStep_spec (s s' : ServerState) (inp : StepInputs) (closed : List Int)
    (hInv : Inv s) (hF : FreshAccept s inp)
    (hstep : loopStep s inp = .next s' closed) :
    Inv s' ∧ s'.listenFd = s.listenFd ∧ closed = closedOf s inp ∧
    (∀ c ∈ closed, c ∉ s'.fdList) ∧
    (closed ≠ [] → s'.changed = true) := by
  have hpoll : inp.pollRet ≠ -1 := by
    intro hp
    simp [loopStep, hp] at hstep
  rw [loopStep_next s inp hpoll] at hstep
  injection hstep with h1 h2
  have hclosed : closed = closedOf s inp := h2.symm
  have hfd : s'.fdList =
      (closedOf s inp).foldl (fun l fd => l.erase fd) (afterAccept s inp).fdList := by
    rw [← h1]
  have hnum : s'.numFds =
      (afterAccept s inp).numFds - (closedOf s inp).length := by
    rw [← h1]
  have hchg : s'.changed =
      ((afterAccept s inp).changed || !(closedOf s inp).isEmpty) := by
    rw [← h1]
  have hlfd : s'.listenFd = (afterAccept s inp).listenFd := by
    rw [← h1]
  have hpfd : s'.pfds = (afterAccept s inp).pfds := by
    rw [← h1]
  obtain ⟨hA1, hA2, hA3, hA4, hA5, hA6⟩ := afterAccept_spec s inp hInv hF
  have hslots : (clientSlots (rebuildIfChanged s).pfds inp.revents s.numFds).map
      Prod.fst = s.fdList := by
    rw [rebuild_pfds_of_inv s hInv, hInv.1]
    exact clientSlots_map_fst s.listenFd s.fdList inp.revents
  have hsub : List.Sublist (closedOf s inp) s.fdList := by
    conv_rhs => rw [← hslots]
    exact (List.filter_sublist _).map Prod.fst
  have hCnd : (closedOf s inp).Nodup := hsub.nodup hInv.2.1
  have hCmem : ∀ c ∈ closedOf s inp, c ∈ (afterAccept s inp).fdList :=
    fun c hc => hA5 (hsub.subset hc)
  have hlen := length_foldl_erase (closedOf s inp) (afterAccept s inp).fdList hCnd hCmem
  refine ⟨⟨?_, ?_, ?_, ?_⟩, ?_, hclosed, ?_, ?_⟩
  · rw [hnum, hfd, hA2]
    omega
  · rw [hfd]
    exact nodup_foldl_erase _ _ hA3
  · rw [hlfd, hA1, hfd]
    intro hmem
    exact hA4 (mem_of_mem_foldl_erase _ _ _ hmem)
  · intro hch
    rw [hchg] at hch
    have hch1 : (afterAccept s inp).changed = false := by
      cases hAc : (afterAccept s inp).changed
      · rfl
      · rw [hAc] at hch
        simp at hch
    have hC : closedOf s inp = [] := by
      cases hE : (closedOf s inp).isEmpty
      · rw [hE, hch1] at hch
        simp at hch
      · exact List.isEmpty_iff.mp hE
    obtain ⟨hfl, hpf⟩ := hA6 hch1
    rw [hpfd, hpf, hlfd, hA1, hfd, hC, List.foldl_nil, hfl]
  · rw [hlfd, hA1]
  · intro c hc
    rw [hfd]
    exact not_mem_foldl_erase _ _ c hA3 (hclosed ▸ hc)
  · intro hne
    rw [hchg]
    have hE : (closedOf s inp).isEmpty = false := by
      cases hE : (closedOf s inp).isEmpty
      · rfl
      · exact absurd (List.isEmpty_iff.mp hE) (hclosed ▸ hne)
    rw [hE]
    simp

/-! ### The claims -/

/-- Claim C1, evaluated at a failing input.  With handles 3 and 4 registered
and a receive of N = 5 bytes, if the first non-blocking send fails
(returns -1), the second handle's send is issued with length argument -1,
not the 5 received bytes: `DoEcho` reuses the variable `result` as both the
`send` length and the `send` return value.  One `MSG_DONTWAIT` send attempt
per registered handle does occur, but not every attempt carries the N
received bytes, contradicting the claim. -/
theorem broadcast_reuses_send_result :
    (DoEcho 5 (fun i => if i = 0 then (-1 : Int) else 2) [3, 4]).2 =
      [⟨3, 5, MSG_DONTWAIT⟩, ⟨4, -1, MSG_DONTWAIT⟩] ∧
    ¬ ∀ call ∈ (DoEcho 5 (fun i => if i = 0 then (-1 : Int) else 2) [3, 4]).2,
        call.len = 5 := by
  decide

/-- Claim C2, evaluated at a failing input.  Inserting fd 5 into the
registry `[5]` — whose only (hence last) node already holds 5 — succeeds
(returns 0) and appends a second node for 5: the duplicate scan of
`InsertFd` never compares the last node.  A duplicate anywhere before the
last node is detected (second conjunct), so the claim fails exactly on
tail duplicates. -/
theorem insertFd_tail_duplicate_bug :
    InsertFd 5 [5] = (0, [5, 5]) ∧ InsertFd 5 [5, 6] = (EEXIST, [5, 6]) := by
  decide

/-- Claim C3, counterexample.  Removing the absent fd 7 from the non-empty
registry `[5]` returns `ENOENT`, which is not the claimed no-op success
(return 0); the registry itself is unchanged. -/
theorem removeFd_absent_not_success :
    (RemoveFd 7 [5]).1 = ENOENT ∧ (RemoveFd 7 [5]).1 ≠ 0 ∧
    (RemoveFd 7 [5]).2 = [5] := by
  decide

/-- Claim C3, amended.  Removing an fd that is not in the registry leaves
the registry unchanged and returns 0 on an empty registry but `ENOENT` on a
non-empty one (the caller ignores this return value, so the removal is
behaviourally a no-op, but it is reported as an error, not success). -/
theorem removeFd_absent_noop (fd : Int) (l : List Int) (h : fd ∉ l) :
    (RemoveFd fd l).1 = (if l = [] then 0 else ENOENT) ∧
    (RemoveFd fd l).2 = l := by
  constructor
  · rw [RemoveFd_fst]
    by_cases he : l = [] <;> simp [he, h]
  · rw [RemoveFd_snd, List.erase_of_not_mem h]

/-- Witness for the amended claim C3 at fd 7 and registry `[5]`. -/
theorem removeFd_absent_noop_witness :
    (7 : Int) ∉ ([5] : List Int) ∧
    ((RemoveFd 7 [5]).1 = (if ([5] : List Int) = [] then 0 else ENOENT) ∧
      (RemoveFd 7 [5]).2 = [5]) :=
  ⟨by decide, removeFd_absent_noop 7 [5] (by decide)⟩

/-- Claim C4: a per-peer send failure never causes removal.  The return
value of `DoEcho` does not depend on the send results at all, and it is
`<= 0` (the caller's removal condition) exactly when the receive returned
`<= 0`; consequently the set of fds closed and removed by the client-service
loop is exactly the ready slots whose receive returned `<= 0`, independent
of every send result. -/
theorem send_failures_never_drive_removal (recvRet : Int) (sr sr2 : Nat → Int)
    (l : List Int) (recvOf : Int → Int) (sendOf sendOf2 : Int → Nat → Int)
    (slots : List (Int × Bool)) (L : List Int) :
    (DoEcho recvRet sr l).1 = (DoEcho recvRet sr2 l).1 ∧
    ((DoEcho recvRet sr l).1 ≤ 0 ↔ recvRet ≤ 0) ∧
    (serviceClients recvOf sendOf slots L).2 =
      (slots.filter fun q => q.2 && decide (recvOf q.1 ≤ 0)).map Prod.fst ∧
    (serviceClients recvOf sendOf slots L).2 =
      (serviceClients recvOf sendOf2 slots L).2 := by
  refine ⟨?_, DoEcho_fst_nonpos recvRet sr l,
    serviceClients_snd recvOf sendOf slots L, ?_⟩
  · rw [DoEcho_fst, DoEcho_fst]
  · rw [serviceClients_snd, serviceClients_snd]

/-- Claim C5: starting from the empty registry, a sequence of inserts of
distinct fds (fresh accepted descriptors are always distinct) builds the
registry in insertion order, and a broadcast pass fans out over exactly
that sequence in that order. -/
theorem insertion_order_preserved (fds : List Int) (h : fds.Nodup) :
    insertAll fds [] = fds ∧
    ∀ (rr : Int) (sr : Nat → Int), 0 < rr →
      ((DoEcho rr sr (insertAll fds [])).2).map SendCall.fd = fds := by
  have h1 : insertAll fds [] = fds :=
    insertAll_of_forall_not_mem fds [] h (fun x _ hx => (List.not_mem_nil x) hx)
  refine ⟨h1, fun rr sr hrr => ?_⟩
  rw [h1]
  exact DoEcho_targets rr sr fds hrr

/-- Witness for claim C5 at the insertion sequence `[3, 5, 7]`. -/
theorem insertion_order_preserved_witness :
    ([3, 5, 7] : List Int).Nodup ∧ insertAll [3, 5, 7] [] = [3, 5, 7] ∧
    ((DoEcho 2 (fun _ => 2) (insertAll [3, 5, 7] [])).2).map SendCall.fd =
      [3, 5, 7] :=
  ⟨by decide, (insertion_order_preserved [3, 5, 7] (by decide)).1,
    (insertion_order_preserved [3, 5, 7] (by decide)).2 2 (fun _ => 2) (by decide)⟩

/-- Claim C6: if a ready client slot's receive reports close or error
(returns `<= 0`), then in that same iteration its fd is closed exactly once
and removed from the registry, and the `pollfd` set of the next readiness
wait (rebuilt because the registry changed) no longer contains it. -/
theorem close_before_next_wait (s s' : ServerState) (inp : StepInputs) (c : Int)
    (closed : List Int) (hInv : Inv s) (hF : FreshAccept s inp)
    (hready : (c, true) ∈ clientSlots (rebuildIfChanged s).pfds inp.revents s.numFds)
    (hdead : inp.recvOf c ≤ 0)
    (hstep : loopStep s inp = .next s' closed) :
    closed.count c = 1 ∧ c ∉ s'.fdList ∧ c ∉ (rebuildIfChanged s').pfds := by
  obtain ⟨hinv', hlfd, hclosed, hnot, hch⟩ := loopStep_spec s s' inp closed hInv hF hstep
  have hcmem : c ∈ closedOf s inp := by
    unfold closedOf
    refine List.mem_map_of_mem Prod.fst (List.mem_filter.mpr ⟨hready, ?_⟩)
    simp [hdead]
  have hslots : (clientSlots (rebuildIfChanged s).pfds inp.revents s.numFds).map
      Prod.fst = s.fdList := by
    rw [rebuild_pfds_of_inv s hInv, hInv.1]
    exact clientSlots_map_fst s.listenFd s.fdList inp.revents
  have hsub : List.Sublist (closedOf s inp) s.fdList := by
    conv_rhs => rw [← hslots]
    exact (List.filter_sublist _).map Prod.fst
  have hCnd : (closedOf s inp).Nodup := hsub.nodup hInv.2.1
  have hcount : closed.count c = 1 := by
    rw [hclosed]
    exact List.count_eq_one_of_mem hCnd hcmem
  have hcfd : c ∈ s.fdList := hsub.subset hcmem
  have hcl : c ≠ s.listenFd := fun he => hInv.2.2.1 (he ▸ hcfd)
  have hcnot : c ∉ s'.fdList := hnot c (hclosed ▸ hcmem)
  refine ⟨hcount, hcnot, ?_⟩
  have hchanged : s'.changed = true :=
    hch (by rw [hclosed]; exact List.ne_nil_of_mem hcmem)
  have hreb : (rebuildIfChanged s').pfds =
      s'.listenFd :: s'.fdList.take (s'.numFds - 1) := by
    unfold rebuildIfChanged
    rw [if_pos hchanged]
  rw [hreb]
  intro hmem
  rcases List.mem_cons.mp hmem with h | h
  · rw [hlfd] at h
    exact hcl h
  · exact hcnot (List.take_subset _ _ h)

/-- Witness for claim C6: with registry `[3, 5]`, a fresh accept of fd 7 and
fd 3's receive returning 0, the iteration closes fd 3 once, removes it, and
the rebuilt `pollfd` set of the next wait excludes it. -/
theorem close_before_next_wait_witness :
    Inv (⟨10, [3, 5], 3, false, [10, 3, 5]⟩ : ServerState) ∧
    ((3 : Int), true) ∈ clientSlots
      (rebuildIfChanged ⟨10, [3, 5], 3, false, [10, 3, 5]⟩).pfds (fun _ => true) 3 ∧
    (([3] : List Int).count 3 = 1 ∧
      (3 : Int) ∉ ((⟨10, [5, 7], 3, true, [10, 3, 5]⟩ : ServerState)).fdList ∧
      (3 : Int) ∉ (rebuildIfChanged ⟨10, [5, 7], 3, true, [10, 3, 5]⟩).pfds) :=
  ⟨by unfold Inv; decide, by decide,
    close_before_next_wait ⟨10, [3, 5], 3, false, [10, 3, 5]⟩
      ⟨10, [5, 7], 3, true, [10, 3, 5]⟩
      ⟨1, fun _ => true, 7, (fun fd => if fd = 3 then 0 else 1), fun _ _ => 1⟩
      3 [3] (by unfold Inv; decide) (by unfold FreshAccept; decide)
      (by decide) (by decide) (by decide)⟩

/-- Claim C7: whenever `poll` returns -1, the iteration is fatal — the
process exits with `EXIT_FAILURE` (a non-zero status), with no retry
(the step produces no successor state).  The code exits on every -1, so in
particular on every failure other than benign interruption. -/
theorem poll_failure_fatal (s : ServerState) (inp : StepInputs)
    (h : inp.pollRet = -1) :
    loopStep s inp = .fatal EXIT_FAILURE ∧ EXIT_FAILURE ≠ 0 := by
  constructor
  · simp [loopStep, h]
  · decide

/-- Witness for claim C7 at a concrete state and a `poll` result of -1. -/
theorem poll_failure_fatal_witness :
    (⟨-1, fun _ => true, -1, fun _ => 1, fun _ _ => 1⟩ : StepInputs).pollRet = -1 ∧
    (loopStep ⟨10, [], 1, false, [10]⟩
        ⟨-1, fun _ => true, -1, fun _ => 1, fun _ _ => 1⟩ =
      .fatal EXIT_FAILURE ∧ EXIT_FAILURE ≠ 0) :=
  ⟨rfl, poll_failure_fatal ⟨10, [], 1, false, [10]⟩
    ⟨-1, fun _ => true, -1, fun _ => 1, fun _ _ => 1⟩ rfl⟩

/-- Claim C8: a server invocation without exactly one port argument
(`argc ≠ 2`), and a client invocation without exactly a host and a port
(`argc ≠ 3`), print usage to the error stream and exit with the non-zero
status `EXIT_FAILURE`. -/
theorem usage_on_bad_argc (argc : Nat) :
    (argc ≠ 2 → serverArgCheck argc = .usageExit true EXIT_FAILURE) ∧
    (argc ≠ 3 → clientArgCheck argc = .usageExit true EXIT_FAILURE) ∧
    EXIT_FAILURE ≠ 0 := by
  refine ⟨fun h => ?_, fun h => ?_, by decide⟩
  · simp [serverArgCheck, h]
  · simp [clientArgCheck, h]

/-- Witness for claim C8 at `argc = 4`. -/
theorem usage_on_bad_argc_witness :
    ((4 : Nat) ≠ 2 ∧ serverArgCheck 4 = .usageExit true EXIT_FAILURE) ∧
    ((4 : Nat) ≠ 3 ∧ clientArgCheck 4 = .usageExit true EXIT_FAILURE) ∧
    EXIT_FAILURE ≠ 0 :=
  ⟨⟨by decide, (usage_on_bad_argc 4).1 (by decide)⟩,
    ⟨by decide, (usage_on_bad_argc 4).2.1 (by decide)⟩,
    (usage_on_bad_argc 4).2.2⟩

/-- Claim C9: under the loop invariant (with fresh accepted fds), the
`pollfd` set passed to each readiness wait is the listening fd followed by
exactly the registry members and `numFds` equals one plus the registry
length, and every iteration of the loop (accept/insert and all removals
included) preserves the invariant. -/
theorem poll_invariant (s s' : ServerState) (inp : StepInputs) (closed : List Int)
    (hInv : Inv s) (hF : FreshAccept s inp)
    (hstep : loopStep s inp = .next s' closed) :
    ((rebuildIfChanged s).pfds = s.listenFd :: s.fdList ∧
      (rebuildIfChanged s).numFds = 1 + s.fdList.length) ∧ Inv s' := by
  refine ⟨⟨rebuild_pfds_of_inv s hInv, ?_⟩,
    (loopStep_spec s s' inp closed hInv hF hstep).1⟩
  rw [rebuild_numFds]
  exact hInv.1

/-- Witness for claim C9: one full iteration on the registry `[3, 5]` with
an accepted fd 7 and fd 3 disconnecting. -/
theorem poll_invariant_witness :
    Inv (⟨10, [3, 5], 3, false, [10, 3, 5]⟩ : ServerState) ∧
    (((rebuildIfChanged ⟨10, [3, 5], 3, false, [10, 3, 5]⟩).pfds =
        10 :: [3, 5] ∧
      (rebuildIfChanged ⟨10, [3, 5], 3, false, [10, 3, 5]⟩).numFds =
        1 + ([3, 5] : List Int).length) ∧
      Inv (⟨10, [5, 7], 3, true, [10, 3, 5]⟩ : ServerState)) :=
  ⟨by unfold Inv; decide,
    poll_invariant ⟨10, [3, 5], 3, false, [10, 3, 5]⟩
      ⟨10, [5, 7], 3, true, [10, 3, 5]⟩
      ⟨1, fun _ => true, 7, (fun fd => if fd = 3 then 0 else 1), fun _ _ => 1⟩
      [3] (by unfold Inv; decide) (by unfold FreshAccept; decide) (by decide)⟩

/-- Claim C10: a receive issued with length `BUF_SIZE` returns at most
`BUF_SIZE` bytes, so for every positive count the terminator write at index
equal to the count stays within the `BUF_SIZE + 1`-byte buffer. -/
theorem recv_within_buffer (pending : List Nat)
    (_h : 0 < (recvFromStream pending).1) :
    (recvFromStream pending).1 ≤ BUF_SIZE ∧
    (recvFromStream pending).1 < bufferCapacity := by
  have hm : (recvFromStream pending).1 ≤ BUF_SIZE := min_le_right _ _
  exact ⟨hm, Nat.lt_succ_of_le hm⟩

/-- Witness for claim C10 at a 3-byte pending stream. -/
theorem recv_within_buffer_witness :
    0 < (recvFromStream [1, 2, 3]).1 ∧
    ((recvFromStream [1, 2, 3]).1 ≤ BUF_SIZE ∧
      (recvFromStream [1, 2, 3]).1 < bufferCapacity) :=
  ⟨by decide, recv_within_buffer [1, 2, 3] (by decide)⟩

end EchoServer
